import Mathlib

/-!
Verification of the unox change-monitoring adapter (`unox.py`).

The development shallowly embeds the program's data model and operations:

* the per-replica change trigger tree (`triggerReplica`, lines 146-176, and
  `reportRecursiveChanges`, lines 234-239) as an inductive `Node` with
  assoc-list children (Python dicts preserve insertion order; setting an
  existing key keeps its position, a new key is appended);
* the protocol codec (`sendCmd`, `recvCmd`, `pathTokenize`, percent
  quoting/unquoting) over Lean `String`s, with Python's `str.split`,
  `str.strip` and `urllib` quote/unquote modelled character-by-character
  (faithful for ASCII data, which is all the protocol carries);
* the session controller (`main`, `startReplicaMon` and the surrounding
  `try/finally` block) as a step function over an explicit session state,
  with Python's `sys.exit` (unwinds, `finally` runs) and `os._exit`
  (immediate termination, `finally` skipped) distinguished as outcomes.
-/

/-- A node of a replica's trigger tree: Python's recursive dict whose values
are either `True` (a dirty marker: the whole subtree changed) or a nested
dict keyed by path tokens. -/
inductive Node where
  | dirty : Node
  | branch : List (String × Node) → Node

/-- Python dict lookup on the assoc-list model (first matching key). -/
def lookupKey (cs : List (String × Node)) (k : String) : Option Node :=
  match cs with
  | [] => none
  | (k', n) :: rest => if k' = k then some n else lookupKey rest k

/-- Python dict membership test (`k in d`). -/
def hasKey (cs : List (String × Node)) (k : String) : Bool :=
  (lookupKey cs k).isSome

/-- Python dict assignment `d[k] = v`: an existing key keeps its position,
a new key is appended at the end. -/
def setKey (cs : List (String × Node)) (k : String) (v : Node) : List (String × Node) :=
  match cs with
  | [] => [(k, v)]
  | (k', n) :: rest => if k' = k then (k, v) :: rest else (k', n) :: setKey rest k v

/-- Python dict deletion `del d[k]` (no-op if absent, matching the guarded
uses in the source). -/
def eraseKey (cs : List (String × Node)) (k : String) : List (String × Node) :=
  match cs with
  | [] => []
  | (k', n) :: rest => if k' = k then rest else (k', n) :: eraseKey rest k

/-- The walk of `triggerReplica` (unox.py lines 161-175) on a non-empty token
list: iterate through the branch tokens, stopping at any existing dirty
marker, materializing missing child dicts, and set a dirty marker at the
final token. -/
def insertToks : Node → List String → Node
  | Node.dirty, _ => Node.dirty
  | Node.branch cs, [] => Node.branch cs
  | Node.branch cs, [t] => Node.branch (setKey cs t Node.dirty)
  | Node.branch cs, t :: t2 :: rest =>
      Node.branch (setKey cs t
        (insertToks (match lookupKey cs t with
                     | some m => m
                     | none => Node.branch []) (t2 :: rest)))

/-- The tree update performed by `triggerReplica` (unox.py lines 152-175) on
one replica's entry of `triggered_reps` (`none` = replica absent): an empty
token list replaces the whole tree by a dirty marker; otherwise the walk of
`insertToks` runs on the existing tree or on a fresh empty dict. -/
def triggerTree (t : Option Node) (toks : List String) : Option Node :=
  match toks with
  | [] => some Node.dirty
  | t1 :: rest =>
      match t with
      | none => some (insertToks (Node.branch []) (t1 :: rest))
      | some n => some (insertToks n (t1 :: rest))

/-- Recording a whole sequence of changes for one replica. -/
def recordAll (t : Option Node) (ps : List (List String)) : Option Node :=
  ps.foldl triggerTree t

mutual
/-- The relative token paths of the dirty markers of a tree, in the order
`reportRecursiveChanges` (unox.py lines 234-239) visits them. -/
def drainToks : Node → List (List String)
  | Node.dirty => [[]]
  | Node.branch cs => drainList cs
def drainList : List (String × Node) → List (List String)
  | [] => []
  | (k, n) :: rest => (drainToks n).map (fun q => k :: q) ++ drainList rest
end

/-- Draining a possibly-absent tree (a replica not in `triggered_reps`
reports nothing). -/
def drainO : Option Node → List (List String)
  | none => []
  | some n => drainToks n

/-- `os.path.join` as used by `reportRecursiveChanges`: the accumulated
local path is either empty or built from non-empty separator-free tokens,
on which `os.path.join a b` is `b` when `a` is empty and `a ++ "/" ++ b`
otherwise. -/
def osPathJoin (a b : String) : String :=
  if a = "" then b else a ++ "/" ++ b

mutual
/-- `reportRecursiveChanges` (unox.py lines 234-239), returning the list of
relative paths it emits (in source order); the caller wraps each in a
`RECURSIVE` line. -/
def reportRecursiveChanges (localPath : String) : Node → List String
  | Node.dirty => [localPath]
  | Node.branch cs => reportList localPath cs
def reportList (localPath : String) : List (String × Node) → List String
  | [] => []
  | (k, n) :: rest => reportRecursiveChanges (osPathJoin localPath k) n ++ reportList localPath rest
end

mutual
/-- Well-formedness of a tree as Python dicts guarantee it: every child map
has pairwise distinct keys. -/
def wf : Node → Bool
  | Node.dirty => true
  | Node.branch cs => wfList cs
def wfList : List (String × Node) → Bool
  | [] => true
  | (k, n) :: rest => !hasKey rest k && wf n && wfList rest
end

/-- Well-formedness of a possibly-absent tree. -/
def wfO : Option Node → Bool
  | none => true
  | some n => wf n

/-- A (recorded or emitted) change at token path `p` is covered by tree `t`
when some dirty marker of `t` sits at a prefix of `p`. -/
def covers (t : Option Node) (p : List String) : Prop :=
  ∃ q ∈ drainO t, q <+: p

/-! ### Assoc-list lemmas (Python dict model) -/

theorem lookupKey_mem {cs : List (String × Node)} {k : String} {n : Node}
    (h : lookupKey cs k = some n) : (k, n) ∈ cs := by
  induction cs with
  | nil => simp [lookupKey] at h
  | cons p rest ih =>
    obtain ⟨k', n'⟩ := p
    simp only [lookupKey] at h
    by_cases hk : k' = k
    · rw [if_pos hk] at h
      cases h
      subst hk
      exact List.mem_cons_self _ _
    · rw [if_neg hk] at h
      exact List.mem_cons_of_mem _ (ih h)

theorem hasKey_false_iff {cs : List (String × Node)} {k : String} :
    hasKey cs k = false ↔ ∀ p ∈ cs, p.1 ≠ k := by
  induction cs with
  | nil => simp [hasKey, lookupKey]
  | cons p rest ih =>
    obtain ⟨k', n'⟩ := p
    by_cases hk : k' = k
    · simp [hasKey, lookupKey, hk]
    · simp only [hasKey, lookupKey, if_neg hk]
      simp only [hasKey] at ih
      simp [ih, hk]

theorem mem_setKey {cs : List (String × Node)} {t k : String} {v m : Node}
    (h : (k, m) ∈ setKey cs t v) : (k = t ∧ m = v) ∨ (k, m) ∈ cs := by
  induction cs with
  | nil => simp [setKey] at h; exact Or.inl h
  | cons p rest ih =>
    obtain ⟨k', n'⟩ := p
    simp only [setKey] at h
    by_cases hk : k' = t
    · rw [if_pos hk] at h
      rcases List.mem_cons.mp h with h | h
      · cases h; exact Or.inl ⟨rfl, rfl⟩
      · exact Or.inr (List.mem_cons_of_mem _ h)
    · rw [if_neg hk] at h
      rcases List.mem_cons.mp h with h | h
      · cases h; exact Or.inr (List.mem_cons_self _ _)
      · rcases ih h with h | h
        · exact Or.inl h
        · exact Or.inr (List.mem_cons_of_mem _ h)

theorem setKey_self_mem (cs : List (String × Node)) (t : String) (v : Node) :
    (t, v) ∈ setKey cs t v := by
  induction cs with
  | nil => simp [setKey]
  | cons p rest ih =>
    obtain ⟨k', n'⟩ := p
    simp only [setKey]
    by_cases hk : k' = t
    · rw [if_pos hk]; exact List.mem_cons_self _ _
    · rw [if_neg hk]; exact List.mem_cons_of_mem _ ih

theorem mem_setKey_of_ne {cs : List (String × Node)} {t k : String} {m : Node} (v : Node)
    (h : (k, m) ∈ cs) (hne : k ≠ t) : (k, m) ∈ setKey cs t v := by
  induction cs with
  | nil => simp at h
  | cons p rest ih =>
    obtain ⟨k', n'⟩ := p
    simp only [setKey]
    rcases List.mem_cons.mp h with he | hm
    · cases he
      rw [if_neg hne]
      exact List.mem_cons_self _ _
    · by_cases hk : k' = t
      · rw [if_pos hk]; exact List.mem_cons_of_mem _ hm
      · rw [if_neg hk]; exact List.mem_cons_of_mem _ (ih hm)

theorem lookupKey_setKey_self {cs : List (String × Node)} {t : String} {v : Node} :
    lookupKey (setKey cs t v) t = some v := by
  induction cs with
  | nil => simp [setKey, lookupKey]
  | cons p rest ih =>
    obtain ⟨k', n'⟩ := p
    simp only [setKey]
    by_cases hk : k' = t
    · rw [if_pos hk]; simp [lookupKey]
    · rw [if_neg hk]; simp only [lookupKey, if_neg hk]; exact ih

theorem lookupKey_setKey_ne {cs : List (String × Node)} {t k : String} {v : Node}
    (hk : k ≠ t) : lookupKey (setKey cs t v) k = lookupKey cs k := by
  induction cs with
  | nil =>
    have h1 : t ≠ k := fun h => hk h.symm
    simp [setKey, lookupKey, h1]
  | cons p rest ih =>
    obtain ⟨k', n'⟩ := p
    simp only [setKey]
    by_cases hkt : k' = t
    · rw [if_pos hkt]
      have h1 : t ≠ k := fun h => hk h.symm
      have h2 : k' ≠ k := hkt ▸ h1
      simp [lookupKey, if_neg h1, if_neg h2]
    · rw [if_neg hkt]
      simp only [lookupKey]
      by_cases hkk : k' = k
      · simp [if_pos hkk]
      · simp only [if_neg hkk]; exact ih

theorem hasKey_setKey {cs : List (String × Node)} {t k : String} {v : Node} :
    hasKey (setKey cs t v) k = true ↔ (hasKey cs k = true ∨ k = t) := by
  by_cases hk : k = t
  · subst hk; simp [hasKey, lookupKey_setKey_self]
  · simp [hasKey, lookupKey_setKey_ne hk, hk]

theorem wfList_cons {k : String} {n : Node} {rest : List (String × Node)} :
    wfList ((k, n) :: rest) = true ↔
      hasKey rest k = false ∧ wf n = true ∧ wfList rest = true := by
  simp [wfList, Bool.and_eq_true, Bool.not_eq_true', and_assoc]

theorem wf_child {cs : List (String × Node)} {k : String} {m : Node}
    (hwf : wfList cs = true) (h : (k, m) ∈ cs) : wf m = true := by
  induction cs with
  | nil => simp at h
  | cons p rest ih =>
    obtain ⟨k', n'⟩ := p
    obtain ⟨_, h2, h3⟩ := wfList_cons.mp hwf
    rcases List.mem_cons.mp h with he | hm
    · cases he; exact h2
    · exact ih h3 hm

theorem lookupKey_of_mem_wf {cs : List (String × Node)} {k : String} {m : Node}
    (hwf : wfList cs = true) (h : (k, m) ∈ cs) : lookupKey cs k = some m := by
  induction cs with
  | nil => simp at h
  | cons p rest ih =>
    obtain ⟨k', n'⟩ := p
    obtain ⟨h1, _, h3⟩ := wfList_cons.mp hwf
    rcases List.mem_cons.mp h with he | hm
    · cases he; simp [lookupKey]
    · have hne : k' ≠ k := fun he => (hasKey_false_iff.mp h1 (k, m) hm) (by simp [he])
      simp only [lookupKey, if_neg hne]
      exact ih h3 hm

theorem wf_setKey {cs : List (String × Node)} {t : String} {v : Node}
    (hwf : wfList cs = true) (hv : wf v = true) : wfList (setKey cs t v) = true := by
  induction cs with
  | nil => simp [setKey, wfList, hasKey, lookupKey, hv]
  | cons p rest ih =>
    obtain ⟨k', n'⟩ := p
    obtain ⟨h1, h2, h3⟩ := wfList_cons.mp hwf
    simp only [setKey]
    by_cases hk : k' = t
    · rw [if_pos hk]
      exact wfList_cons.mpr ⟨hk ▸ h1, hv, h3⟩
    · rw [if_neg hk]
      refine wfList_cons.mpr ⟨?_, h2, ih h3⟩
      rw [Bool.eq_false_iff]
      intro hc
      rcases hasKey_setKey.mp hc with hc | hc
      · rw [h1] at hc; cases hc
      · exact hk hc

/-! ### Trigger-tree lemmas -/

theorem mem_drainList {cs : List (String × Node)} {q : List String} :
    q ∈ drainList cs ↔ ∃ k n, (k, n) ∈ cs ∧ ∃ a ∈ drainToks n, q = k :: a := by
  induction cs with
  | nil => simp [drainList]
  | cons p rest ih =>
    obtain ⟨k', n'⟩ := p
    simp only [drainList, List.mem_append, List.mem_map, ih]
    constructor
    · rintro (⟨a, ha, rfl⟩ | ⟨k, n, hm, a, ha, rfl⟩)
      · exact ⟨k', n', List.mem_cons_self _ _, a, ha, rfl⟩
      · exact ⟨k, n, List.mem_cons_of_mem _ hm, a, ha, rfl⟩
    · rintro ⟨k, n, hm, a, ha, rfl⟩
      rcases List.mem_cons.mp hm with he | hm
      · cases he; exact Or.inl ⟨a, ha, rfl⟩
      · exact Or.inr ⟨k, n, hm, a, ha, rfl⟩

theorem mem_drain_insert {n : Node} {p : List String} :
    ∀ q ∈ drainToks (insertToks n p), q = p ∨ q ∈ drainToks n := by
  induction n, p using insertToks.induct with
  | case1 p =>
    intro q hq
    exact Or.inr (by simpa [insertToks] using hq)
  | case2 cs =>
    intro q hq
    exact Or.inr (by simpa [insertToks] using hq)
  | case3 cs t =>
    intro q hq
    simp only [insertToks, drainToks] at hq
    rcases mem_drainList.mp hq with ⟨k, m, hkm, a, ha, rfl⟩
    rcases mem_setKey hkm with ⟨rfl, rfl⟩ | hmem
    · simp only [drainToks, List.mem_singleton] at ha
      subst ha
      exact Or.inl rfl
    · exact Or.inr (mem_drainList.mpr ⟨k, m, hmem, a, ha, rfl⟩)
  | case4 cs t t2 rest ih =>
    intro q hq
    simp only [insertToks, drainToks] at hq
    rcases mem_drainList.mp hq with ⟨k, m, hkm, a, ha, rfl⟩
    rcases mem_setKey hkm with ⟨rfl, rfl⟩ | hmem
    · rcases ih a ha with rfl | hold
      · exact Or.inl rfl
      · cases hl : lookupKey cs k with
        | none =>
          rw [hl] at hold
          simp [drainToks, drainList] at hold
        | some m0 =>
          rw [hl] at hold
          exact Or.inr (mem_drainList.mpr ⟨k, m0, lookupKey_mem hl, a, hold, rfl⟩)
    · exact Or.inr (mem_drainList.mpr ⟨k, m, hmem, a, ha, rfl⟩)

theorem insert_covers_self {n : Node} {p : List String} (hp : p ≠ []) :
    ∃ q ∈ drainToks (insertToks n p), q <+: p := by
  induction n, p using insertToks.induct with
  | case1 p =>
    exact ⟨[], by simp [insertToks, drainToks], List.nil_prefix⟩
  | case2 cs =>
    exact absurd rfl hp
  | case3 cs t =>
    refine ⟨[t], ?_, List.prefix_refl _⟩
    simp only [insertToks, drainToks]
    exact mem_drainList.mpr ⟨t, Node.dirty, setKey_self_mem _ _ _, [], by simp [drainToks], rfl⟩
  | case4 cs t t2 rest ih =>
    rcases ih (by simp) with ⟨q', hq', hpre⟩
    refine ⟨t :: q', ?_, List.cons_prefix_cons.mpr ⟨rfl, hpre⟩⟩
    simp only [insertToks, drainToks]
    exact mem_drainList.mpr ⟨t, _, setKey_self_mem _ _ _, q', hq', rfl⟩

theorem insert_covers_mono {n : Node} {p q0 : List String} (hwf : wf n = true)
    (h : ∃ q ∈ drainToks n, q <+: q0) : ∃ q ∈ drainToks (insertToks n p), q <+: q0 := by
  induction n, p using insertToks.induct generalizing q0 with
  | case1 p =>
    simpa [insertToks] using h
  | case2 cs =>
    simpa [insertToks] using h
  | case3 cs t =>
    rcases h with ⟨q, hq, hpre⟩
    simp only [drainToks] at hq
    rcases mem_drainList.mp hq with ⟨k, m, hkm, a, ha, rfl⟩
    by_cases hk : k = t
    · subst hk
      obtain ⟨q0', rfl⟩ : ∃ q0', q0 = k :: q0' := by
        cases q0 with
        | nil => exact absurd hpre (by simp)
        | cons x xs =>
          rcases List.cons_prefix_cons.mp hpre with ⟨rfl, -⟩
          exact ⟨xs, rfl⟩
      refine ⟨[k], ?_, List.cons_prefix_cons.mpr ⟨rfl, List.nil_prefix⟩⟩
      simp only [insertToks, drainToks]
      exact mem_drainList.mpr ⟨k, Node.dirty, setKey_self_mem _ _ _, [], by simp [drainToks], rfl⟩
    · refine ⟨k :: a, ?_, hpre⟩
      simp only [insertToks, drainToks]
      exact mem_drainList.mpr ⟨k, m, mem_setKey_of_ne _ hkm hk, a, ha, rfl⟩
  | case4 cs t t2 rest ih =>
    rcases h with ⟨q, hq, hpre⟩
    simp only [drainToks] at hq
    rcases mem_drainList.mp hq with ⟨k, m, hkm, a, ha, rfl⟩
    by_cases hk : k = t
    · subst hk
      obtain ⟨q0', rfl⟩ : ∃ q0', q0 = k :: q0' := by
        cases q0 with
        | nil => exact absurd hpre (by simp)
        | cons x xs =>
          rcases List.cons_prefix_cons.mp hpre with ⟨rfl, -⟩
          exact ⟨xs, rfl⟩
      have hla : lookupKey cs k = some m := lookupKey_of_mem_wf (by simpa [wf] using hwf) hkm
      have hwm : wf m = true := wf_child (by simpa [wf] using hwf) hkm
      have ha' : ∃ q ∈ drainToks m, q <+: q0' :=
        ⟨a, ha, (List.cons_prefix_cons.mp hpre).2⟩
      rw [hla] at ih
      rcases ih hwm ha' with ⟨r, hr, hrpre⟩
      refine ⟨k :: r, ?_, List.cons_prefix_cons.mpr ⟨rfl, hrpre⟩⟩
      simp only [insertToks, hla, drainToks]
      exact mem_drainList.mpr ⟨k, _, setKey_self_mem _ _ _, r, hr, rfl⟩
    · refine ⟨k :: a, ?_, hpre⟩
      simp only [insertToks, drainToks]
      exact mem_drainList.mpr ⟨k, m, mem_setKey_of_ne _ hkm hk, a, ha, rfl⟩

theorem wf_insertToks {n : Node} {p : List String} (h : wf n = true) :
    wf (insertToks n p) = true := by
  induction n, p using insertToks.induct with
  | case1 p => simpa [insertToks] using h
  | case2 cs => simpa [insertToks] using h
  | case3 cs t =>
    simp only [insertToks, wf]
    exact wf_setKey (by simpa [wf] using h) rfl
  | case4 cs t t2 rest ih =>
    simp only [insertToks, wf]
    refine wf_setKey (by simpa [wf] using h) (ih ?_)
    cases hl : lookupKey cs t with
    | none => simp [hl, wf, wfList]
    | some m0 => simpa [hl] using wf_child (by simpa [wf] using h) (lookupKey_mem hl)

/-- Two emitted paths are incomparable: neither subtree contains the other. -/
def Incomp (a b : List String) : Prop := ¬ a <+: b ∧ ¬ b <+: a

mutual
theorem pairwise_drainToks : ∀ n : Node, wf n = true → (drainToks n).Pairwise Incomp
  | Node.dirty, _ => by simp [drainToks]
  | Node.branch cs, h => by
    have hh := pairwise_drainList cs (by simpa [wf] using h)
    simpa [drainToks] using hh
theorem pairwise_drainList :
    ∀ cs : List (String × Node), wfList cs = true → (drainList cs).Pairwise Incomp
  | [], _ => by simp [drainList]
  | (k, n) :: rest, h => by
    obtain ⟨h1, h2, h3⟩ := wfList_cons.mp h
    have hn := pairwise_drainToks n h2
    have hr := pairwise_drainList rest h3
    simp only [drainList]
    rw [List.pairwise_append]
    refine ⟨?_, hr, ?_⟩
    · rw [List.pairwise_map]
      refine hn.imp ?_
      intro a b hab
      exact ⟨fun hc => hab.1 (List.cons_prefix_cons.mp hc).2,
             fun hc => hab.2 (List.cons_prefix_cons.mp hc).2⟩
    · intro x hx y hy
      rcases List.mem_map.mp hx with ⟨a, _, rfl⟩
      rcases mem_drainList.mp hy with ⟨k', n', hk', b, _, rfl⟩
      have hkk : k' ≠ k := hasKey_false_iff.mp h1 (k', n') hk'
      exact ⟨fun hc => hkk (List.cons_prefix_cons.mp hc).1.symm,
             fun hc => hkk (List.cons_prefix_cons.mp hc).1⟩
end

theorem nodup_of_pairwise_incomp {l : List (List String)} (h : l.Pairwise Incomp) :
    l.Nodup :=
  h.imp fun hab => fun he => hab.1 (he ▸ List.prefix_refl _)

/-! ### Lifting to the optional per-replica tree -/

theorem wfO_triggerTree {t : Option Node} {p : List String} (h : wfO t = true) :
    wfO (triggerTree t p) = true := by
  cases p with
  | nil => simp [triggerTree, wfO, wf]
  | cons t1 rest =>
    cases t with
    | none => simpa [triggerTree, wfO] using wf_insertToks (n := Node.branch []) (by simp [wf, wfList])
    | some n => simpa [triggerTree, wfO] using wf_insertToks (by simpa [wfO] using h)

theorem drainO_trigger_subset {t : Option Node} {p q : List String}
    (hq : q ∈ drainO (triggerTree t p)) : q = p ∨ q ∈ drainO t := by
  cases p with
  | nil =>
    simp only [triggerTree, drainO, drainToks, List.mem_singleton] at hq
    exact Or.inl hq
  | cons t1 rest =>
    cases t with
    | none =>
      simp only [triggerTree, drainO] at hq
      rcases mem_drain_insert q hq with h | h
      · exact Or.inl h
      · simp [drainToks, drainList] at h
    | some n =>
      simp only [triggerTree, drainO] at hq
      exact mem_drain_insert q hq

theorem trigger_covers_self (t : Option Node) (p : List String) :
    covers (triggerTree t p) p := by
  cases p with
  | nil => exact ⟨[], by simp [triggerTree, drainO, drainToks], List.nil_prefix⟩
  | cons t1 rest =>
    cases t with
    | none => simpa [covers, triggerTree, drainO] using insert_covers_self (n := Node.branch []) (by simp)
    | some n => simpa [covers, triggerTree, drainO] using insert_covers_self (n := n) (by simp)

theorem trigger_covers_mono {t : Option Node} {p q0 : List String} (hwf : wfO t = true)
    (h : covers t q0) : covers (triggerTree t p) q0 := by
  cases p with
  | nil => exact ⟨[], by simp [triggerTree, drainO, drainToks], List.nil_prefix⟩
  | cons t1 rest =>
    cases t with
    | none => simp [covers, drainO] at h
    | some n =>
      simpa [covers, triggerTree, drainO] using
        insert_covers_mono (by simpa [wfO] using hwf) (by simpa [covers, drainO] using h)

theorem pairwise_drainO {t : Option Node} (h : wfO t = true) :
    (drainO t).Pairwise Incomp := by
  cases t with
  | none => simp [drainO]
  | some n => exact pairwise_drainToks n (by simpa [wfO] using h)

/-! ### Folding a whole sequence of recorded changes -/

theorem recordAll_inv (ps : List (List String)) :
    ∀ (t : Option Node) (P : List String → Prop),
      wfO t = true → (∀ q ∈ drainO t, P q) → (∀ p, P p → covers t p) →
      wfO (recordAll t ps) = true ∧
      (∀ q ∈ drainO (recordAll t ps), P q ∨ q ∈ ps) ∧
      (∀ p, P p → covers (recordAll t ps) p) ∧
      (∀ p ∈ ps, covers (recordAll t ps) p) := by
  induction ps with
  | nil =>
    intro t P h1 h2 h3
    refine ⟨h1, fun q hq => Or.inl (h2 q hq), h3, by simp⟩
  | cons p ps ih =>
    intro t P h1 h2 h3
    have hrec : recordAll t (p :: ps) = recordAll (triggerTree t p) ps := by
      simp [recordAll]
    have h1' : wfO (triggerTree t p) = true := wfO_triggerTree h1
    have h2' : ∀ q ∈ drainO (triggerTree t p), P q ∨ q = p := by
      intro q hq
      rcases drainO_trigger_subset hq with h | h
      · exact Or.inr h
      · exact Or.inl (h2 q h)
    have h3' : ∀ q0, (P q0 ∨ q0 = p) → covers (triggerTree t p) q0 := by
      rintro q0 (hP | rfl)
      · exact trigger_covers_mono h1 (h3 q0 hP)
      · exact trigger_covers_self t q0
    obtain ⟨g1, g2, g3, g4⟩ := ih (triggerTree t p) (fun x => P x ∨ x = p) h1' h2' h3'
    rw [hrec]
    refine ⟨g1, ?_, ?_, ?_⟩
    · intro q hq
      rcases g2 q hq with (hP | rfl) | hm
      · exact Or.inl hP
      · exact Or.inr (List.mem_cons_self _ _)
      · exact Or.inr (List.mem_cons_of_mem _ hm)
    · intro q0 hP
      exact g3 q0 (Or.inl hP)
    · intro q0 hq0
      rcases List.mem_cons.mp hq0 with rfl | hm
      · exact g3 q0 (Or.inr rfl)
      · exact g4 q0 hm

/-- The lines a `CHANGES` query emits for one replica: `reportRecursiveChanges`
run from the empty local path when the replica has a trigger tree, nothing
otherwise (unox.py lines 288-290). -/
def reportO : Option Node → List String
  | none => []
  | some n => reportRecursiveChanges "" n

mutual
theorem report_eq_map_join :
    ∀ (n : Node) (lp : String),
      reportRecursiveChanges lp n = (drainToks n).map (fun q => q.foldl osPathJoin lp)
  | Node.dirty, lp => by simp [reportRecursiveChanges, drainToks]
  | Node.branch cs, lp => by
    have hh := reportList_eq_map_join cs lp
    simpa [reportRecursiveChanges, drainToks] using hh
theorem reportList_eq_map_join :
    ∀ (cs : List (String × Node)) (lp : String),
      reportList lp cs = (drainList cs).map (fun q => q.foldl osPathJoin lp)
  | [], lp => by simp [reportList, drainList]
  | (k, n) :: rest, lp => by
    simp only [reportList, drainList, List.map_append, List.map_map]
    rw [report_eq_map_join n (osPathJoin lp k), reportList_eq_map_join rest lp]
    rfl
end

theorem incomp_symm : Symmetric Incomp := fun _ _ h => ⟨h.2, h.1⟩

/-- C1: for every sequence of `recordChange` (`triggerReplica`) calls on one
replica's trigger tree, a subsequent drain (`reportRecursiveChanges` over the
replica's tree) emits a duplicate-free list of relative token paths that
(i) are all recorded paths (no spurious entries), (ii) cover every recorded
path (no omission), (iii) are pairwise non-nested (no entry is a prefix of
another), and (iv) cover each recorded path exactly once; the emitted string
paths are exactly these token paths joined with `os.path.join` from the
empty local path. -/
theorem c1_drain_exactly_covers_records (ps : List (List String)) :
    (drainO (recordAll none ps)).Nodup ∧
    (∀ q ∈ drainO (recordAll none ps), q ∈ ps) ∧
    (∀ p ∈ ps, ∃ q ∈ drainO (recordAll none ps), q <+: p) ∧
    (∀ q1 ∈ drainO (recordAll none ps), ∀ q2 ∈ drainO (recordAll none ps),
      q1 ≠ q2 → ¬ q1 <+: q2) ∧
    (∀ p ∈ ps, ∀ q1 ∈ drainO (recordAll none ps), ∀ q2 ∈ drainO (recordAll none ps),
      q1 <+: p → q2 <+: p → q1 = q2) ∧
    reportO (recordAll none ps) =
      (drainO (recordAll none ps)).map (fun q => q.foldl osPathJoin "") := by
  obtain ⟨g1, g2, g3, g4⟩ :=
    recordAll_inv ps none (fun _ => False) (by simp [wfO]) (by simp [drainO]) (by simp)
  have hpair : (drainO (recordAll none ps)).Pairwise Incomp := pairwise_drainO g1
  have hsub : ∀ q ∈ drainO (recordAll none ps), q ∈ ps := by
    intro q hq
    rcases g2 q hq with h | h
    · exact h.elim
    · exact h
  refine ⟨nodup_of_pairwise_incomp hpair, hsub, fun p hp => g4 p hp, ?_, ?_, ?_⟩
  · intro q1 h1 q2 h2 hne
    exact (List.Pairwise.forall incomp_symm hpair h1 h2 hne).1
  · intro p _ q1 h1 q2 h2 hpre1 hpre2
    by_contra hne
    have hcomp := List.prefix_or_prefix_of_prefix hpre1 hpre2
    rcases hcomp with hc | hc
    · exact (List.Pairwise.forall incomp_symm hpair h1 h2 hne).1 hc
    · exact (List.Pairwise.forall incomp_symm hpair h1 h2 hne).2 hc
  · cases hr : recordAll none ps with
    | none => simp [reportO, drainO]
    | some n => simp [reportO, drainO, report_eq_map_join]

/-- C5: one `recordChange` (`triggerReplica`) step on a well-formed trigger
tree preserves the tree invariant: the result is well-formed, its dirty
markers are pairwise non-nested (minimality: no marker nests inside
another's subtree), every previously covered path stays covered (a marker
is never split back into a branch), and no marker survives strictly below
the freshly recorded path (the new marker subsumes and discards any branch
previously rooted there). -/
theorem c5_trigger_preserves_invariant (t : Option Node) (p : List String)
    (hwf : wfO t = true) :
    wfO (triggerTree t p) = true ∧
    (drainO (triggerTree t p)).Pairwise Incomp ∧
    (∀ q0, covers t q0 → covers (triggerTree t p) q0) ∧
    (∀ q ∈ drainO (triggerTree t p), p <+: q → q = p) := by
  have h1 : wfO (triggerTree t p) = true := wfO_triggerTree hwf
  have hpair := pairwise_drainO h1
  refine ⟨h1, hpair, fun q0 hc => trigger_covers_mono hwf hc, ?_⟩
  intro q hq hpq
  obtain ⟨q', hq', hq'p⟩ := trigger_covers_self t p
  by_cases heq : q' = q
  · subst heq
    exact (hpq.sublist.antisymm hq'p.sublist).symm
  · exact absurd (hq'p.trans hpq) (List.Pairwise.forall incomp_symm hpair hq' hq heq).1

/-- Witness for C5 at a concrete tree and path: recording `a/b` into the
tree `{a: {c: True}}`. -/
theorem c5_witness :
    wfO (some (Node.branch [("a", Node.branch [("c", Node.dirty)])])) = true ∧
    (wfO (triggerTree (some (Node.branch [("a", Node.branch [("c", Node.dirty)])])) ["a", "b"]) = true ∧
     (drainO (triggerTree (some (Node.branch [("a", Node.branch [("c", Node.dirty)])])) ["a", "b"])).Pairwise Incomp ∧
     (∀ q0, covers (some (Node.branch [("a", Node.branch [("c", Node.dirty)])])) q0 →
        covers (triggerTree (some (Node.branch [("a", Node.branch [("c", Node.dirty)])])) ["a", "b"]) q0) ∧
     (∀ q ∈ drainO (triggerTree (some (Node.branch [("a", Node.branch [("c", Node.dirty)])])) ["a", "b"]),
        ["a", "b"] <+: q → q = ["a", "b"])) :=
  ⟨rfl, c5_trigger_preserves_invariant _ ["a", "b"] rfl⟩

/-- Auxiliary: once a replica's tree is a dirty marker, it stays one. -/
theorem recordAll_dirty (ps : List (List String)) :
    recordAll (some Node.dirty) ps = some Node.dirty := by
  induction ps with
  | nil => simp [recordAll]
  | cons p ps ih =>
    have hstep : triggerTree (some Node.dirty) p = some Node.dirty := by
      cases p with
      | nil => simp [triggerTree]
      | cons t1 rest => simp [triggerTree, insertToks]
    simpa [recordAll, hstep] using ih

/-- C6: if the empty path (the root) is recorded at any point — before,
between, or after finer-grained records — the replica's tree is the dirty
marker and the next drain returns exactly one entry, the empty relative
path (the whole replica changed). -/
theorem c6_root_record_collapses_drain (ps1 ps2 : List (List String)) :
    recordAll none (ps1 ++ [] :: ps2) = some Node.dirty ∧
    drainO (recordAll none (ps1 ++ [] :: ps2)) = [[]] ∧
    reportO (recordAll none (ps1 ++ [] :: ps2)) = [""] := by
  have hroot : triggerTree (recordAll none ps1) [] = some Node.dirty := by
    simp [triggerTree]
  have heq : recordAll none (ps1 ++ [] :: ps2) = some Node.dirty := by
    simp only [recordAll, List.foldl_append, List.foldl_cons]
    simpa [recordAll, hroot] using recordAll_dirty ps2
  refine ⟨heq, ?_, ?_⟩
  · rw [heq]; simp [drainO, drainToks]
  · rw [heq]; simp [reportO, reportRecursiveChanges]

/-! ### Path tokenization (`pathTokenize`, unox.py lines 138-143) -/

/-- Python's `str.split(sep)` for a single-character separator, keeping
empty fields (`"a//b".split("/") == ["a", "", "b"]`, `"".split("/") == [""]`). -/
def splitOnChar (sep : Char) : List Char → List (List Char)
  | [] => [[]]
  | c :: cs =>
    if c = sep then [] :: splitOnChar sep cs
    else
      match splitOnChar sep cs with
      | [] => [[c]]
      | t :: ts => (c :: t) :: ts

/-- `pathTokenize` (unox.py lines 138-143): split the path on `"/"` and keep
only the non-empty tokens. -/
def pathTokenize (path : String) : List String :=
  ((splitOnChar '/' path.data).filter (fun t => 0 < t.length)).map String.mk

/-- Joining segments with the `"/"` separator (the shape of the event paths
`Handler.dispatch` hands to `pathTokenize`). -/
def joinSlash : List (List Char) → List Char
  | [] => []
  | [t] => t
  | t :: t2 :: rest => t ++ '/' :: joinSlash (t2 :: rest)

theorem splitOnChar_ne_nil (sep : Char) (cs : List Char) : splitOnChar sep cs ≠ [] := by
  cases cs with
  | nil => simp [splitOnChar]
  | cons c cs =>
    simp only [splitOnChar]
    by_cases h : c = sep
    · simp [h]
    · rw [if_neg h]
      cases hs : splitOnChar sep cs <;> simp

theorem splitOnChar_append_sep (sep : Char) (a ys : List Char) :
    splitOnChar sep (a ++ sep :: ys) = splitOnChar sep a ++ splitOnChar sep ys := by
  induction a with
  | nil => simp [splitOnChar]
  | cons c a ih =>
    simp only [List.cons_append, splitOnChar, List.append_eq]
    by_cases h : c = sep
    · rw [if_pos h, if_pos h, ih]
      rfl
    · rw [if_neg h, if_neg h, ih]
      cases hs : splitOnChar sep a with
      | nil => exact absurd hs (splitOnChar_ne_nil sep a)
      | cons t ts => rfl

theorem splitOnChar_no_sep {sep : Char} {t : List Char} (h : ∀ c ∈ t, c ≠ sep) :
    splitOnChar sep t = [t] := by
  induction t with
  | nil => simp [splitOnChar]
  | cons c t ih =>
    have hc : c ≠ sep := h c (List.mem_cons_self _ _)
    simp only [splitOnChar, if_neg hc]
    rw [ih (fun x hx => h x (List.mem_cons_of_mem _ hx))]

/-- The char-list core of `pathTokenize`. -/
def pathToksL (cs : List Char) : List (List Char) :=
  (splitOnChar '/' cs).filter (fun t => 0 < t.length)

theorem pathTokenize_mk (cs : List Char) :
    pathTokenize (String.mk cs) = (pathToksL cs).map String.mk := rfl

theorem pathToksL_append_sep (a b : List Char) :
    pathToksL (a ++ '/' :: b) = pathToksL a ++ pathToksL b := by
  simp [pathToksL, splitOnChar_append_sep, List.filter_append]

theorem pathToksL_nil : pathToksL [] = [] := rfl

theorem pathToksL_sep_cons (b : List Char) : pathToksL ('/' :: b) = pathToksL b := by
  simp [pathToksL, splitOnChar]

theorem pathToksL_joinSlash :
    ∀ toks : List (List Char), (∀ t ∈ toks, ∀ c ∈ t, c ≠ '/') →
      pathToksL (joinSlash toks) = toks.filter (fun t => 0 < t.length)
  | [], _ => rfl
  | [t], h => by
    simp only [joinSlash, pathToksL, splitOnChar_no_sep (h t (List.mem_singleton.mpr rfl))]
  | t :: t2 :: rest, h => by
    have h1 : ∀ c ∈ t, c ≠ '/' := h t (List.mem_cons_self _ _)
    have h2 : ∀ x ∈ t2 :: rest, ∀ c ∈ x, c ≠ '/' := fun x hx => h x (List.mem_cons_of_mem _ hx)
    show pathToksL (t ++ '/' :: joinSlash (t2 :: rest)) = _
    rw [pathToksL_append_sep, pathToksL_joinSlash (t2 :: rest) h2]
    show (splitOnChar '/' t).filter _ ++ _ = _
    rw [splitOnChar_no_sep h1]
    simp only [List.filter_cons]
    by_cases ht : 0 < t.length <;> simp [ht]

theorem pathToksL_all_sep :
    ∀ cs : List Char, (∀ c ∈ cs, c = '/') → pathToksL cs = []
  | [], _ => rfl
  | c :: cs, h => by
    have hc : c = '/' := h c (List.mem_cons_self _ _)
    subst hc
    rw [pathToksL_sep_cons]
    exact pathToksL_all_sep cs (fun x hx => h x (List.mem_cons_of_mem _ hx))

/-- C10: `pathTokenize` returns exactly the non-empty `/`-separated segments
in order, dropping empty segments; consequently event paths differing only
in duplicate or trailing separators tokenize identically (so they record the
same change), and a path that is empty or consists only of separators
tokenizes to the empty sequence, on which `triggerReplica` marks the whole
replica dirty. -/
theorem c10_pathTokenize_segments :
    (∀ toks : List (List Char), toks.all (fun t => t.all (fun c => c ≠ '/')) = true →
        pathTokenize (String.mk (joinSlash toks)) =
          (toks.filter (fun t => 0 < t.length)).map String.mk) ∧
    (∀ cs : List Char, pathTokenize (String.mk (cs ++ ['/'])) = pathTokenize (String.mk cs)) ∧
    (∀ a b : List Char, pathTokenize (String.mk (a ++ '/' :: '/' :: b)) =
        pathTokenize (String.mk (a ++ '/' :: b))) ∧
    (∀ path : String, path.data.all (fun c => c = '/') = true → pathTokenize path = []) ∧
    (∀ (t : Option Node) (path : String), path.data.all (fun c => c = '/') = true →
        triggerTree t (pathTokenize path) = some Node.dirty) := by
  have key4 : ∀ path : String, path.data.all (fun c => c = '/') = true →
      pathTokenize path = [] := by
    intro path h
    have h' : ∀ c ∈ path.data, c = '/' := by
      intro c hc
      exact of_decide_eq_true (List.all_eq_true.mp h c hc)
    have hz : pathToksL path.data = [] := pathToksL_all_sep path.data h'
    calc pathTokenize path = (pathToksL path.data).map String.mk := rfl
    _ = [] := by rw [hz]; rfl
  refine ⟨?_, ?_, ?_, key4, ?_⟩
  · intro toks h
    have h' : ∀ t ∈ toks, ∀ c ∈ t, c ≠ '/' := by
      intro t ht c hc
      exact of_decide_eq_true (List.all_eq_true.mp (List.all_eq_true.mp h t ht) c hc)
    rw [pathTokenize_mk, pathToksL_joinSlash toks h']
  · intro cs
    rw [pathTokenize_mk, pathTokenize_mk]
    have hps : pathToksL (cs ++ ['/']) = pathToksL cs := by
      have he : cs ++ ['/'] = cs ++ '/' :: [] := rfl
      rw [he, pathToksL_append_sep, pathToksL_nil, List.append_nil]
    rw [hps]
  · intro a b
    rw [pathTokenize_mk, pathTokenize_mk, pathToksL_append_sep, pathToksL_append_sep,
        pathToksL_sep_cons]
  · intro t path h
    rw [key4 path h]
    simp [triggerTree]

/-- Witness for C10: joining `["a", "", "b"]` with separators, and a
separator-only event path. -/
theorem c10_witness :
    ([['a'], [], ['b']].all (fun t => t.all (fun c => c ≠ '/')) = true ∧
     pathTokenize (String.mk (joinSlash [['a'], [], ['b']])) =
       ([['a'], [], ['b']].filter (fun t => 0 < t.length)).map String.mk) ∧
    (("//" : String).data.all (fun c => c = '/') = true ∧
     triggerTree none (pathTokenize "//") = some Node.dirty) :=
  ⟨⟨by decide, c10_pathTokenize_segments.1 [['a'], [], ['b']] (by decide)⟩,
   ⟨by decide, c10_pathTokenize_segments.2.2.2.2 none "//" (by decide)⟩⟩

/-! ### Protocol codec (`sendCmd`, `recvCmd`, unox.py lines 93-135) -/

/-- Python's `str.strip()` whitespace set (ASCII). -/
def isPySpace (c : Char) : Bool :=
  c = ' ' || c = '\t' || c = '\n' || c = '\r' || c = '\x0b' || c = '\x0c'

/-- Python's `str.strip()`: drop leading and trailing whitespace. -/
def stripChars (cs : List Char) : List Char :=
  ((cs.dropWhile isPySpace).reverse.dropWhile isPySpace).reverse

/-- The characters `urllib quote` leaves unescaped with its default
`safe="/"`: ASCII alphanumerics, `_`, `.`, `-`, `~` and `/`. -/
def isSafeChar (c : Char) : Bool :=
  c.isAlphanum || c = '_' || c = '.' || c = '-' || c = '~' || c = '/'

/-- Uppercase hex digit of a value below 16. -/
def hexDigit (n : Nat) : Char :=
  if n < 10 then Char.ofNat (48 + n) else Char.ofNat (55 + n)

/-- Percent-encoding of one character (ASCII model of `urllib quote`). -/
def quoteChar (c : Char) : List Char :=
  if isSafeChar c then [c]
  else ['%', hexDigit (c.toNat / 16 % 16), hexDigit (c.toNat % 16)]

def quoteChars : List Char → List Char
  | [] => []
  | c :: rest => quoteChar c ++ quoteChars rest

/-- `urllib quote` with its default safe set (ASCII model). -/
def pyQuote (s : String) : String := String.mk (quoteChars s.data)

/-- Numeric value of a hex digit character. -/
def hexVal (c : Char) : Option Nat :=
  if '0' ≤ c ∧ c ≤ '9' then some (c.toNat - 48)
  else if 'A' ≤ c ∧ c ≤ 'F' then some (c.toNat - 55)
  else if 'a' ≤ c ∧ c ≤ 'f' then some (c.toNat - 87)
  else none

/-- `urllib unquote` (ASCII model): decode every valid `%XX` escape, leave
an invalid `%` untouched. -/
def unquoteChars : List Char → List Char
  | [] => []
  | c :: rest =>
    if c = '%' then
      match rest with
      | a :: b :: rest2 =>
        match hexVal a, hexVal b with
        | some x, some y => Char.ofNat (16 * x + y) :: unquoteChars rest2
        | _, _ => '%' :: unquoteChars (a :: b :: rest2)
      | [a] => c :: unquoteChars [a]
      | [] => [c]
    else c :: unquoteChars rest
termination_by cs => cs.length
decreasing_by all_goals simp +arith

def pyUnquote (s : String) : String := String.mk (unquoteChars s.data)

/-- `sendCmd` (unox.py lines 93-98): the raw output line built by appending
a space and the percent-quoted argument for each argument in turn. -/
def sendCmd (cmd : String) (args : List String) : String :=
  args.foldl (fun acc a => acc ++ " " ++ pyQuote a) cmd

/-- Iterating a Python `str` yields its characters as 1-character strings;
this is what `sendCmd` receives when a bare string is passed instead of an
argument list (as at unox.py line 278). -/
def strChars (s : String) : List String := s.data.map (fun c => String.mk [c])

/-- `recvCmd` (unox.py lines 116-135) applied to one complete input line
(trailing newline removed): strip the line, split it on single spaces,
return the first word as the command — undecoded — and percent-decode the
remaining words as the arguments. -/
def recvCmd (line : String) : String × List String :=
  let words := (splitOnChar ' ' (stripChars line.data)).map String.mk
  (words.headD "", (words.drop 1).map pyUnquote)

/-- The decode contract as the specification words it (spec §4.1, claim C8):
split the line into words and percent-decode every token, the command token
included. Stated only for refinement comparison with `recvCmd`. -/
def decodeSpec (line : String) : String × List String :=
  let words := ((splitOnChar ' ' (stripChars line.data)).map String.mk).map pyUnquote
  (words.headD "", words.drop 1)

/-! ### Codec lemmas -/

theorem unquoteChars_cons_ne {c : Char} {l : List Char} (h : ¬ c = '%') :
    unquoteChars (c :: l) = c :: unquoteChars l := by
  rw [unquoteChars.eq_def]
  dsimp only
  rw [if_neg h]

theorem unquoteChars_pct {a b : Char} {l : List Char} {x y : Nat}
    (ha : hexVal a = some x) (hb : hexVal b = some y) :
    unquoteChars ('%' :: a :: b :: l) = Char.ofNat (16 * x + y) :: unquoteChars l := by
  rw [unquoteChars.eq_def]
  dsimp only
  rw [if_pos rfl, ha, hb]

theorem isPySpace_eq_true {c : Char} (h : isPySpace c = true) :
    c = ' ' ∨ c = '\t' ∨ c = '\n' ∨ c = '\r' ∨ c = '\x0b' ∨ c = '\x0c' := by
  simpa [isPySpace, Bool.or_eq_true, decide_eq_true_eq, or_assoc] using h

theorem isPySpace_false_of_safe {c : Char} (h : isSafeChar c = true) : isPySpace c = false := by
  rw [Bool.eq_false_iff]
  intro hsp
  rcases isPySpace_eq_true hsp with rfl | rfl | rfl | rfl | rfl | rfl <;>
    exact absurd h (by decide)

theorem isPySpace_false_of_alphanum {c : Char} (h : c.isAlphanum = true) :
    isPySpace c = false :=
  isPySpace_false_of_safe (by simp [isSafeChar, h])

theorem hexDigit_no_space : ∀ n, n < 16 → isPySpace (hexDigit n) = false := by decide

theorem ne_space_of_no_pyspace {c : Char} (h : isPySpace c = false) : c ≠ ' ' := by
  rintro rfl
  exact absurd h (by decide)

theorem quoteChar_no_space {c x : Char} (hx : x ∈ quoteChar c) : isPySpace x = false := by
  unfold quoteChar at hx
  by_cases h : isSafeChar c = true
  · rw [if_pos h] at hx
    rw [List.mem_singleton.mp hx]
    exact isPySpace_false_of_safe h
  · rw [if_neg h] at hx
    simp only [List.mem_cons, List.not_mem_nil, or_false] at hx
    rcases hx with rfl | rfl | rfl
    · decide
    · exact hexDigit_no_space _ (Nat.mod_lt _ (by norm_num))
    · exact hexDigit_no_space _ (Nat.mod_lt _ (by norm_num))

theorem mem_quoteChars {cs : List Char} {x : Char} (hx : x ∈ quoteChars cs) :
    ∃ c ∈ cs, x ∈ quoteChar c := by
  induction cs with
  | nil => simp [quoteChars] at hx
  | cons c rest ih =>
    rcases List.mem_append.mp hx with h | h
    · exact ⟨c, List.mem_cons_self _ _, h⟩
    · rcases ih h with ⟨c', hc', hx'⟩
      exact ⟨c', List.mem_cons_of_mem _ hc', hx'⟩

theorem quoteChars_no_space {cs : List Char} {x : Char} (hx : x ∈ quoteChars cs) :
    isPySpace x = false :=
  let ⟨_, _, hc⟩ := mem_quoteChars hx
  quoteChar_no_space hc

theorem quoteChars_ne_nil {cs : List Char} (h : cs ≠ []) : quoteChars cs ≠ [] := by
  cases cs with
  | nil => exact absurd rfl h
  | cons c rest =>
    show quoteChar c ++ quoteChars rest ≠ []
    unfold quoteChar
    by_cases hs : isSafeChar c = true <;> simp [hs]

/-- The characters `sendCmd` appends after the command: a space followed by
the quoted argument, for each argument. -/
def argsChars : List String → List Char
  | [] => []
  | a :: rest => ' ' :: (quoteChars a.data ++ argsChars rest)

theorem sendCmd_data : ∀ (args : List String) (cmd : String),
    (sendCmd cmd args).data = cmd.data ++ argsChars args
  | [], cmd => by simp [sendCmd, argsChars]
  | a :: rest, cmd => by
    have h1 : sendCmd cmd (a :: rest) = sendCmd (cmd ++ " " ++ pyQuote a) rest := rfl
    rw [h1, sendCmd_data rest (cmd ++ " " ++ pyQuote a)]
    simp [String.data_append, argsChars, pyQuote]

theorem split_args : ∀ (args : List String) (cmdChars : List Char),
    (∀ c ∈ cmdChars, c ≠ ' ') →
    splitOnChar ' ' (cmdChars ++ argsChars args) =
      cmdChars :: args.map (fun a => quoteChars a.data)
  | [], cmdChars, h => by
    simp [argsChars, splitOnChar_no_sep h]
  | a :: rest, cmdChars, h => by
    show splitOnChar ' ' (cmdChars ++ ' ' :: (quoteChars a.data ++ argsChars rest)) = _
    rw [splitOnChar_append_sep, splitOnChar_no_sep h,
        split_args rest (quoteChars a.data)
          (fun c hc => ne_space_of_no_pyspace (quoteChars_no_space hc))]
    simp

theorem dropWhile_eq_self_of_head {p : Char → Bool} {cs : List Char}
    (h : ∀ c, cs.head? = some c → p c = false) : cs.dropWhile p = cs := by
  cases cs with
  | nil => rfl
  | cons c rest => simp [List.dropWhile_cons, h c rfl]

theorem stripChars_eq_self {cs : List Char}
    (h1 : ∀ c, cs.head? = some c → isPySpace c = false)
    (h2 : ∀ c, cs.getLast? = some c → isPySpace c = false) : stripChars cs = cs := by
  unfold stripChars
  rw [dropWhile_eq_self_of_head h1,
      dropWhile_eq_self_of_head (fun c hc => h2 c (by rwa [← List.head?_reverse])),
      List.reverse_reverse]

theorem mem_of_getLast? {l : List Char} {c : Char} (h : l.getLast? = some c) : c ∈ l := by
  have hne : l ≠ [] := by rintro rfl; simp at h
  rw [List.getLast?_eq_getLast l hne] at h
  have hc : c = l.getLast hne := (Option.some.injEq _ _ ▸ h).symm
  subst hc
  exact List.getLast_mem _

theorem getLast?_append_right {l1 l2 : List Char} (h : l2 ≠ []) :
    (l1 ++ l2).getLast? = l2.getLast? := by
  rw [List.getLast?_append]
  cases hl : l2.getLast? with
  | none => exact absurd (List.getLast?_eq_none_iff.mp hl) h
  | some c => rfl

theorem argsChars_last_no_space :
    ∀ (args : List String), (∀ a ∈ args, a.data ≠ []) →
      ∀ c, (argsChars args).getLast? = some c → isPySpace c = false
  | [], _ => by intro c hc; simp [argsChars] at hc
  | [a], h => by
    intro c hc
    have hqa : quoteChars a.data ≠ [] :=
      quoteChars_ne_nil (h a (List.mem_singleton.mpr rfl))
    have he : argsChars [a] = [' '] ++ quoteChars a.data := by simp [argsChars]
    rw [he, getLast?_append_right hqa] at hc
    exact quoteChars_no_space (mem_of_getLast? hc)
  | a :: b :: rest, h => by
    intro c hc
    have hal : argsChars (b :: rest) ≠ [] := by simp [argsChars]
    have he : argsChars (a :: b :: rest) =
        (' ' :: quoteChars a.data) ++ argsChars (b :: rest) := by simp [argsChars]
    rw [he, getLast?_append_right hal] at hc
    exact argsChars_last_no_space (b :: rest)
      (fun x hx => h x (List.mem_cons_of_mem _ hx)) c hc

theorem hexVal_hexDigit : ∀ n, n < 16 → hexVal (hexDigit n) = some n := by decide

theorem unquote_quoteChars : ∀ cs : List Char, (∀ c ∈ cs, c.toNat < 128) →
    unquoteChars (quoteChars cs) = cs
  | [], _ => by simp [quoteChars, unquoteChars]
  | c :: rest, h => by
    have hrest : ∀ x ∈ rest, x.toNat < 128 := fun x hx => h x (List.mem_cons_of_mem _ hx)
    have hc : c.toNat < 128 := h c (List.mem_cons_self _ _)
    show unquoteChars (quoteChar c ++ quoteChars rest) = c :: rest
    by_cases hs : isSafeChar c = true
    · rw [quoteChar, if_pos hs]
      have hnp : ¬ c = '%' := by rintro rfl; exact absurd hs (by decide)
      show unquoteChars (c :: quoteChars rest) = c :: rest
      rw [unquoteChars_cons_ne hnp, unquote_quoteChars rest hrest]
    · rw [quoteChar, if_neg hs]
      have hhi : c.toNat / 16 % 16 < 16 := Nat.mod_lt _ (by norm_num)
      have hlo : c.toNat % 16 < 16 := Nat.mod_lt _ (by norm_num)
      show unquoteChars ('%' :: hexDigit (c.toNat / 16 % 16) :: hexDigit (c.toNat % 16) ::
        quoteChars rest) = c :: rest
      rw [unquoteChars_pct (hexVal_hexDigit _ hhi) (hexVal_hexDigit _ hlo),
          unquote_quoteChars rest hrest]
      have hdiv : c.toNat / 16 % 16 = c.toNat / 16 :=
        Nat.mod_eq_of_lt (Nat.div_lt_of_lt_mul (by omega))
      rw [hdiv, Nat.div_add_mod, Char.ofNat_toNat]

/-- C8 counterexample: `recvCmd` does not percent-decode the command token.
On the line `"A%41 B%42"` the argument is decoded (`"B%42"` → `"BB"`) but
the command comes back as the raw `"A%41"`, not the decoded `"AA"` that the
claim (decode percent-decodes each token, the command token included)
prescribes. -/
theorem c8_counterexample :
    recvCmd "A%41 B%42" = ("A%41", ["BB"]) ∧
    decodeSpec "A%41 B%42" = ("AA", ["BB"]) ∧
    recvCmd "A%41 B%42" ≠ decodeSpec "A%41 B%42" := by
  refine ⟨?_, ?_, ?_⟩
  · simp [recvCmd, stripChars, isPySpace, splitOnChar, pyUnquote, unquoteChars, hexVal]
  · simp [decodeSpec, stripChars, isPySpace, splitOnChar, pyUnquote, unquoteChars, hexVal]
  · simp [recvCmd, decodeSpec, stripChars, isPySpace, splitOnChar, pyUnquote,
      unquoteChars, hexVal]

/-- C8 amended: `recvCmd` strips the line, splits it on single spaces, and
percent-decodes each argument token, while the command token is returned
undecoded; in particular it inverts `sendCmd` whenever the command is a
non-empty alphanumeric word and every argument is a non-empty ASCII
string. -/
theorem c8_recvCmd_inverts_sendCmd (cmd : String) (args : List String)
    (h1 : cmd ≠ "")
    (h2 : cmd.data.all (fun c => c.isAlphanum) = true)
    (h3 : args.all (fun a => a ≠ "" && a.data.all (fun c => c.toNat < 128)) = true) :
    recvCmd (sendCmd cmd args) = (cmd, args) := by
  have hcm : ∀ c ∈ cmd.data, c.isAlphanum = true := List.all_eq_true.mp h2
  have hargs : ∀ a ∈ args, a ≠ "" ∧ ∀ c ∈ a.data, c.toNat < 128 := by
    intro a ha
    have hh := List.all_eq_true.mp h3 a ha
    rw [Bool.and_eq_true] at hh
    exact ⟨of_decide_eq_true hh.1,
           fun c hc => of_decide_eq_true (List.all_eq_true.mp hh.2 c hc)⟩
  have hdata : ∀ a ∈ args, a.data ≠ [] := by
    intro a ha hd
    have : a = "" := by
      have he : a = String.mk a.data := rfl
      rw [he, hd]
    exact (hargs a ha).1 this
  have hcd : cmd.data ≠ [] := by
    intro hd
    apply h1
    have he : cmd = String.mk cmd.data := rfl
    rw [he, hd]
  have hline := sendCmd_data args cmd
  have hhead : ∀ c, (cmd.data ++ argsChars args).head? = some c → isPySpace c = false := by
    intro c hc
    cases hcase : cmd.data with
    | nil => exact absurd hcase hcd
    | cons x xs =>
      rw [hcase] at hc
      simp only [List.cons_append, List.head?_cons, Option.some.injEq] at hc
      rw [← hc]
      exact isPySpace_false_of_alphanum (hcm x (by rw [hcase]; exact List.mem_cons_self _ _))
  have hlast : ∀ c, (cmd.data ++ argsChars args).getLast? = some c → isPySpace c = false := by
    intro c hc
    cases args with
    | nil =>
      rw [show argsChars [] = [] from rfl, List.append_nil] at hc
      exact isPySpace_false_of_alphanum (hcm c (mem_of_getLast? hc))
    | cons a rest =>
      rw [getLast?_append_right (by simp [argsChars])] at hc
      exact argsChars_last_no_space (a :: rest) hdata c hc
  have hsplit := split_args args cmd.data
    (fun c hc => ne_space_of_no_pyspace (isPySpace_false_of_alphanum (hcm c hc)))
  have hmap : ∀ a ∈ args, pyUnquote (String.mk (quoteChars a.data)) = a := by
    intro a ha
    show String.mk (unquoteChars (quoteChars a.data)) = a
    rw [unquote_quoteChars a.data (hargs a ha).2]
  simp only [recvCmd, hline, stripChars_eq_self hhead hlast, hsplit]
  simp only [List.map_cons, List.headD_cons, List.drop_one, List.tail_cons, List.map_map]
  refine Prod.ext rfl ?_
  show List.map (fun a => pyUnquote (String.mk (quoteChars a.data))) args = args
  calc List.map (fun a => pyUnquote (String.mk (quoteChars a.data))) args
      = List.map id args := List.map_congr_left hmap
  _ = args := List.map_id args

/-- Witness for C8 amended: round-trip of `WAIT` with the argument
`"a b"` (whose space is percent-encoded on the wire). -/
theorem c8_witness :
    (("WAIT" : String) ≠ "" ∧
     ("WAIT" : String).data.all (fun c => c.isAlphanum) = true ∧
     (["a b"] : List String).all (fun a => a ≠ "" && a.data.all (fun c => c.toNat < 128)) = true) ∧
    recvCmd (sendCmd "WAIT" ["a b"]) = ("WAIT", ["a b"]) :=
  ⟨⟨by decide, by decide, by decide⟩,
   c8_recvCmd_inverts_sendCmd "WAIT" ["a b"] (by decide) (by decide) (by decide)⟩

/-! ### Session controller (`main`, `startReplicaMon`, unox.py lines 202-317) -/

/-- A decoded input command: the command word and its argument list. -/
abbrev Cmd := String × List String

/-- How the process run ends.

* `eof`: `recvCmd` saw the end of the input stream and raised `SystemExit(0)`
  (unox.py line 128); the exception unwinds, so the `finally` block of the
  `__main__` wrapper runs, and the exit code is 0.
* `errExit`: `sendError` wrote an `ERROR` line and called `os._exit(1)`
  (unox.py line 113), which terminates the process immediately — the
  `finally` block does not run.
* `arityExc`: a list-destructuring statement such as `[replica] = args`
  raised an uncaught `ValueError`; it unwinds, the `finally` block runs, and
  the interpreter exits non-zero. -/
inductive Outcome where
  | eof : Outcome
  | errExit : Outcome
  | arityExc : Outcome
deriving DecidableEq

/-- The mutable module-level state of unox.py: the registered replicas (with
their watch handles, identified here by the replica token), the pending and
triggered replica maps, and the debug flag.  `scheduled` and `released`
record every `observer.schedule` and `observer.unschedule` call; `warns`
records the warning log. -/
structure SessionSt where
  replicas : List String
  scheduled : List String
  released : List String
  pending : List String
  triggered : List (String × Node)
  warns : List String
  inDebug : Bool

/-- The initial state (unox.py lines 43-60). -/
def st0 : SessionSt :=
  { replicas := [], scheduled := [], released := [], pending := [],
    triggered := [], warns := [], inDebug := false }

/-- Result of processing one main-loop command: either the loop continues
with the remaining input, or the process is ending. -/
inductive StepRes where
  | cont : List String → SessionSt → List Cmd → StepRes
  | halt : List String → SessionSt → Outcome → StepRes

/-- The registration sub-loop of `startReplicaMon` (unox.py lines 222-231):
acknowledge each `DIR`, abort fatally on `LINK` or anything unexpected,
return to the caller on `DONE`.  Returns the lines written, the unconsumed
input, and `some outcome` when the process ends inside the sub-loop. -/
def startSub : List Cmd → List String × List Cmd × Option Outcome
  | [] => ([], [], some Outcome.eof)
  | (c, _) :: rest =>
    if c = "DIR" then
      let r := startSub rest
      ("OK" :: r.1, r.2.1, r.2.2)
    else if c = "LINK" then
      ([sendCmd "ERROR"
          ["link following is not supported by unison-watchdog, please disable this option (-links)"]],
       rest, some Outcome.errExit)
    else if c = "DONE" then ([], rest, none)
    else
      ([sendCmd "ERROR" ["unexpected cmd in replica start: " ++ c]], rest, some Outcome.errExit)

theorem startSub_length_le : ∀ cs : List Cmd, (startSub cs).2.1.length ≤ cs.length
  | [] => Nat.le_refl _
  | (c, a) :: rest => by
    show (startSub ((c, a) :: rest)).2.1.length ≤ rest.length + 1
    unfold startSub
    by_cases h1 : c = "DIR"
    · simp only [if_pos h1]
      exact Nat.le_succ_of_le (startSub_length_le rest)
    · by_cases h2 : c = "LINK"
      · simp [if_neg h1, if_pos h2]
      · by_cases h3 : c = "DONE"
        · simp [if_neg h1, if_neg h2, if_pos h3]
        · simp [if_neg h1, if_neg h2, if_neg h3]

/-- `startReplicaMon` (unox.py lines 202-231): schedule a recursive watch
for an unknown replica (a re-`START` of a known token skips scheduling),
acknowledge, then run the registration sub-loop.  The `fspath`/`path`
arguments only configure the watch handler and are not tracked here. -/
def startReplicaMon (st : SessionSt) (replica : String) (rest : List Cmd) : StepRes :=
  let st1 := if replica ∈ st.replicas then st
             else { st with replicas := st.replicas ++ [replica],
                            scheduled := st.scheduled ++ [replica] }
  match startSub rest with
  | (out, rem, some oc) => StepRes.halt ("OK" :: out) st1 oc
  | (out, rem, none) => StepRes.cont ("OK" :: out) st1 rem

/-- One iteration of the main loop (unox.py lines 254-307): clear the
pending set unless the command is `WAIT`, then dispatch. -/
def stepCmd (st0 : SessionSt) (cmd : Cmd) (rest : List Cmd) : StepRes :=
  let c := cmd.1
  let args := cmd.2
  let st := if c = "WAIT" then st0 else { st0 with pending := [] }
  if c = "DEBUG" then
    StepRes.cont [] { st with inDebug := true } rest
  else if c = "START" then
    match args with
    | [replica, _fspath] => startReplicaMon st replica rest
    | [replica, _fspath, _path] => startReplicaMon st replica rest
    | _ => StepRes.halt [] st Outcome.arityExc
  else if c = "WAIT" then
    match args with
    | [replica] =>
      if replica ∈ st.replicas then
        if hasKey st.triggered replica then
          StepRes.cont [sendCmd "CHANGES" (strChars replica)] { st with pending := [] } rest
        else
          StepRes.cont [] { st with pending :=
            if replica ∈ st.pending then st.pending else st.pending ++ [replica] } rest
      else StepRes.halt [sendCmd "ERROR" ["unknown replica: " ++ replica]] st Outcome.errExit
    | _ => StepRes.halt [] st Outcome.arityExc
  else if c = "CHANGES" then
    match args with
    | [replica] =>
      if replica ∈ st.replicas then
        match lookupKey st.triggered replica with
        | some tree =>
          StepRes.cont
            ((reportRecursiveChanges "" tree).map (fun p => sendCmd "RECURSIVE" [p]) ++
              [sendCmd "DONE" []])
            { st with triggered := eraseKey st.triggered replica } rest
        | none => StepRes.cont [sendCmd "DONE" []] st rest
      else StepRes.halt [sendCmd "ERROR" ["unknown replica: " ++ replica]] st Outcome.errExit
    | _ => StepRes.halt [] st Outcome.arityExc
  else if c = "RESET" then
    match args with
    | [replica] =>
      if replica ∈ st.replicas then
        StepRes.cont []
          { st with replicas := st.replicas.erase replica,
                    released := st.released ++ [replica],
                    triggered := eraseKey st.triggered replica } rest
      else
        StepRes.cont []
          { st with warns := st.warns ++ ["unknown replica: " ++ replica] } rest
    | _ => StepRes.halt [] st Outcome.arityExc
  else
    StepRes.halt [sendCmd "ERROR" ["unexpected root cmd: " ++ c]] st Outcome.errExit

set_option maxHeartbeats 1000000 in
theorem stepCmd_cont_length {st : SessionSt} {cmd : Cmd} {rest rem : List Cmd}
    {out : List String} {st' : SessionSt}
    (h : stepCmd st cmd rest = StepRes.cont out st' rem) : rem.length ≤ rest.length := by
  unfold stepCmd startReplicaMon at h
  dsimp only at h
  repeat' split at h
  all_goals (try cases h)
  all_goals (try exact Nat.le_refl _)
  all_goals
    (have hh := startSub_length_le rest
     rename startSub rest = _ => heq
     rw [heq] at hh
     exact hh)

/-- The main loop (unox.py lines 254-307): read and process commands until
the stream ends or the process terminates. -/
def mainLoop (st : SessionSt) : List Cmd → List String × SessionSt × Outcome
  | [] => ([], st, Outcome.eof)
  | cmd :: rest =>
    match hs : stepCmd st cmd rest with
    | StepRes.halt out st' oc => (out, st', oc)
    | StepRes.cont out st' rem =>
      let r := mainLoop st' rem
      (out ++ r.1, r.2)
termination_by cmds => cmds.length
decreasing_by
  exact Nat.lt_succ_of_le (stepCmd_cont_length hs)

/-- `main` (unox.py lines 242-307): send the `VERSION` announcement, check
the client's version reply (a mismatched number only warns), then run the
main loop. -/
def pyMain (cmds : List Cmd) : List String × SessionSt × Outcome :=
  let v := sendCmd "VERSION" ["1"]
  match cmds with
  | [] => ([v], st0, Outcome.eof)
  | (c, args) :: rest =>
    if c ≠ "VERSION" then
      ([v, sendCmd "ERROR" ["unexpected version cmd: " ++ c]], st0, Outcome.errExit)
    else
      match args with
      | [vno] =>
        let st1 := if vno = "1" then st0
                   else { st0 with warns := st0.warns ++ ["unexpected version: " ++ vno] }
        let r := mainLoop st1 rest
        (v :: r.1, r.2)
      | _ => ([v], st0, Outcome.arityExc)

/-- The observable result of a whole process run. -/
structure ProgResult where
  outputs : List String
  released : List String
  exitCode : Nat

/-- The `__main__` wrapper (unox.py lines 310-317): run `main()` inside
`try/finally`; the `finally` block unschedules the watch of every replica
still registered.  Python's `os._exit` (the `errExit` outcome) terminates
the process at once, skipping the `finally` block, so no watches are
released on that path; `sys.exit` (stream end) and an uncaught exception
unwind through the `finally` block. -/
def runProgram (cmds : List Cmd) : ProgResult :=
  match pyMain cmds with
  | (out, st, Outcome.errExit) => ⟨out, st.released, 1⟩
  | (out, st, Outcome.eof) => ⟨out, st.released ++ st.replicas, 0⟩
  | (out, st, Outcome.arityExc) => ⟨out, st.released ++ st.replicas, 1⟩

/-- The session state a step result carries. -/
def stepSt : StepRes → SessionSt
  | StepRes.cont _ st _ => st
  | StepRes.halt _ st _ => st

/-- The pending set after one main-loop step. -/
def stepPending (r : StepRes) : List String := (stepSt r).pending

/-- C2 (code bug): a `WAIT` for a registered, pre-triggered replica does
clear the Pending-Wait Set, but the notification it emits is malformed:
`sendCmd("CHANGES", replica)` at unox.py line 278 passes the token string
where an argument list is expected, so the token is iterated character by
character and the line `CHANGES r 1` is emitted instead of `CHANGES r1`
(the well-formed line built by `sendCmd "CHANGES" ["r1"]`, as the async
path at line 150 and the protocol's reply vocabulary prescribe). -/
theorem c2_wait_pretriggered_malformed_line :
    stepCmd { st0 with replicas := ["r1"], triggered := [("r1", Node.dirty)] }
        ("WAIT", ["r1"]) [] =
      StepRes.cont ["CHANGES r 1"]
        { st0 with replicas := ["r1"], triggered := [("r1", Node.dirty)], pending := [] } [] ∧
    sendCmd "CHANGES" ["r1"] = "CHANGES r1" ∧
    ("CHANGES r 1" : String) ≠ "CHANGES r1" :=
  ⟨rfl, rfl, by decide⟩

/-- C7: any main-loop command other than `WAIT` leaves the Pending-Wait Set
empty afterwards — the clearing happens before the command's own effect, and
no non-`WAIT` branch ever repopulates the set, even when it was already
empty or no notification was pending. -/
theorem c7_nonwait_clears_pending (st : SessionSt) (cmd : Cmd) (rest : List Cmd)
    (h : cmd.1 ≠ "WAIT") :
    stepPending (stepCmd st cmd rest) = [] := by
  unfold stepCmd startReplicaMon
  dsimp only
  simp only [if_neg h]
  repeat' split
  all_goals simp [stepPending, stepSt]

/-- Witness for C7: a `DEBUG` command with a non-empty pending set. -/
theorem c7_witness :
    (("DEBUG", ([] : List String)) : Cmd).1 ≠ "WAIT" ∧
    stepPending (stepCmd { st0 with pending := ["r1"] } ("DEBUG", []) []) = [] :=
  ⟨by decide, c7_nonwait_clears_pending { st0 with pending := ["r1"] } ("DEBUG", []) [] (by decide)⟩

/-- C9: an unknown replica token is handled asymmetrically: `RESET` only
appends a warning to the log and the session continues with no output (in
particular no `ERROR`), while `WAIT` and `CHANGES` reply `ERROR` and
terminate the process via `os._exit(1)`. -/
theorem c9_unknown_token_asymmetry (st : SessionSt) (tok : String) (rest : List Cmd)
    (h : tok ∉ st.replicas) :
    stepCmd st ("RESET", [tok]) rest =
      StepRes.cont []
        { st with pending := [], warns := st.warns ++ ["unknown replica: " ++ tok] } rest ∧
    stepCmd st ("WAIT", [tok]) rest =
      StepRes.halt [sendCmd "ERROR" ["unknown replica: " ++ tok]] st Outcome.errExit ∧
    stepCmd st ("CHANGES", [tok]) rest =
      StepRes.halt [sendCmd "ERROR" ["unknown replica: " ++ tok]] { st with pending := [] }
        Outcome.errExit := by
  refine ⟨?_, ?_, ?_⟩ <;> simp [stepCmd, h]

/-- Witness for C9 at the empty registry and token `"rX"`. -/
theorem c9_witness :
    ("rX" ∉ st0.replicas) ∧
    (stepCmd st0 ("RESET", ["rX"]) [] =
      StepRes.cont []
        { st0 with pending := [], warns := st0.warns ++ ["unknown replica: " ++ "rX"] } [] ∧
    stepCmd st0 ("WAIT", ["rX"]) [] =
      StepRes.halt [sendCmd "ERROR" ["unknown replica: " ++ "rX"]] st0 Outcome.errExit ∧
    stepCmd st0 ("CHANGES", ["rX"]) [] =
      StepRes.halt [sendCmd "ERROR" ["unknown replica: " ++ "rX"]] { st0 with pending := [] }
        Outcome.errExit) :=
  ⟨by decide, c9_unknown_token_asymmetry st0 "rX" [] (by decide)⟩

/-- C3 counterexample: the claim says the OK acknowledging a REGISTER/START
is emitted only upon receiving the registration-complete marker (DONE), but
on the input `VERSION 1; START r1 /a` — which contains no DONE at all — the
adapter has already emitted the OK (`startReplicaMon` sends it before
entering the sub-loop, unox.py line 221). -/
theorem c3_counterexample :
    (pyMain [("VERSION", ["1"]), ("START", ["r1", "/a"])]).1 = ["VERSION 1", "OK"] ∧
    ([("VERSION", ["1"]), ("START", ["r1", "/a"])].all (fun c => c.1 ≠ "DONE")) = true := by
  constructor
  · simp [pyMain, mainLoop, stepCmd, startReplicaMon, startSub, st0, sendCmd, pyQuote,
      quoteChars, quoteChar, isSafeChar]
  · decide

/-- C3 corrected: for a successful START of a new replica, the controller
emits the success acknowledgment (OK) immediately after registering, before
the sub-loop consumes any input; the sub-loop then answers each DIR with a
further OK and exits back to the main loop on DONE without sending another
acknowledgment. -/
theorem c3_start_ack_before_subloop (st : SessionSt) (r f : String) (n : Nat)
    (rest : List Cmd) (hr : r ∉ st.replicas) :
    stepCmd st ("START", [r, f])
        (List.replicate n ("DIR", ([] : List String)) ++ ("DONE", []) :: rest) =
      StepRes.cont ("OK" :: List.replicate n "OK")
        { st with pending := [], replicas := st.replicas ++ [r],
                  scheduled := st.scheduled ++ [r] }
        rest := by
  have hsub : ∀ m, startSub (List.replicate m ("DIR", ([] : List String)) ++ ("DONE", []) :: rest) =
      (List.replicate m "OK", rest, none) := by
    intro m
    induction m with
    | zero => simp [startSub]
    | succ k ih => simp [List.replicate_succ, startSub, ih]
  simp [stepCmd, startReplicaMon, hsub n, hr]

/-- Witness for C3 corrected: starting `r1` with two DIR acknowledgments. -/
theorem c3_witness :
    ("r1" ∉ st0.replicas) ∧
    stepCmd st0 ("START", ["r1", "/a"])
        (List.replicate 2 ("DIR", ([] : List String)) ++ ("DONE", []) :: []) =
      StepRes.cont ("OK" :: List.replicate 2 "OK")
        { st0 with
            pending := [],
            replicas := st0.replicas ++ ["r1"],
            scheduled := st0.scheduled ++ ["r1"] }
        [] :=
  ⟨by decide, c3_start_ack_before_subloop st0 "r1" "/a" 2 [] (by decide)⟩

/-- Watch-accounting invariant: every watch ever scheduled has either been
released or belongs to a still-registered replica. -/
def WatchInv (st : SessionSt) : Prop :=
  ∀ w ∈ st.scheduled, w ∈ st.released ∨ w ∈ st.replicas

theorem watch_reset_helper (rel rep : List String) (x w : String)
    (h : w ∈ rel ∨ w ∈ rep) : w ∈ rel ++ [x] ∨ w ∈ rep.erase x := by
  by_cases hwx : w = x
  · exact Or.inl (List.mem_append_right _ (hwx ▸ List.mem_singleton.mpr rfl))
  · rcases h with h | h
    · exact Or.inl (List.mem_append_left _ h)
    · exact Or.inr ((List.mem_erase_of_ne hwx).mpr h)

theorem watch_start_helper (sch rel rep : List String) (x w : String)
    (hInv : ∀ y ∈ sch, y ∈ rel ∨ y ∈ rep) (hw : w ∈ sch ++ [x]) :
    w ∈ rel ∨ w ∈ rep ++ [x] := by
  rcases List.mem_append.mp hw with h | h
  · rcases hInv w h with h' | h'
    · exact Or.inl h'
    · exact Or.inr (List.mem_append_left _ h')
  · exact Or.inr (List.mem_append_right _ h)

theorem stepCmd_watchInv (st : SessionSt) (cmd : Cmd) (rest : List Cmd)
    (hInv : WatchInv st) : WatchInv (stepSt (stepCmd st cmd rest)) := by
  unfold stepCmd startReplicaMon
  dsimp only
  repeat' split
  all_goals simp only [stepSt]
  all_goals intro w hw
  all_goals
    first
      | exact hInv w hw
      | exact watch_start_helper _ _ _ _ w hInv hw
      | exact watch_reset_helper _ _ _ w (hInv w hw)

theorem mainLoop_watchInv : ∀ (st : SessionSt) (cmds : List Cmd),
    WatchInv st → WatchInv (mainLoop st cmds).2.1 := by
  intro st cmds
  induction st, cmds using mainLoop.induct with
  | case1 st => intro h; simpa [mainLoop] using h
  | case2 st cmd rest out st' oc hs =>
    intro h
    have hh := stepCmd_watchInv st cmd rest h
    rw [hs] at hh
    simp only [mainLoop]
    split
    · rename_i out2 st2 oc2 hs2
      rw [hs] at hs2
      injection hs2 with e1 e2 e3
      subst e2
      exact hh
    · rename_i out2 st2 rem2 hs2
      rw [hs] at hs2
      cases hs2
  | case3 st cmd rest out st' rem hs ih =>
    intro h
    have hh := stepCmd_watchInv st cmd rest h
    rw [hs] at hh
    simp only [mainLoop]
    split
    · rename_i out2 st2 oc2 hs2
      rw [hs] at hs2
      cases hs2
    · rename_i out2 st2 rem2 hs2
      rw [hs] at hs2
      injection hs2 with e1 e2 e3
      subst e2
      subst e3
      exact ih hh

theorem pyMain_watchInv (cmds : List Cmd) : WatchInv (pyMain cmds).2.1 := by
  have h0 : WatchInv st0 := by intro w hw; simp [st0] at hw
  unfold pyMain
  dsimp only
  repeat' split
  all_goals
    first
      | exact h0
      | (apply mainLoop_watchInv
         intro w hw
         simp [st0] at hw)

/-- C4 counterexample: after `VERSION 1; START r1 /a; DONE`, an unknown
command `BOGUS` makes `sendError` reply `ERROR` and call `os._exit(1)`,
which skips the `finally` teardown: the process exits non-zero with `r1`
still registered and its scheduled watch never unscheduled — contradicting
the claim that every termination path releases all watches. -/
theorem c4_counterexample :
    (runProgram [("VERSION", ["1"]), ("START", ["r1", "/a"]), ("DONE", []),
        ("BOGUS", [])]).released = [] ∧
    (runProgram [("VERSION", ["1"]), ("START", ["r1", "/a"]), ("DONE", []),
        ("BOGUS", [])]).exitCode = 1 ∧
    (pyMain [("VERSION", ["1"]), ("START", ["r1", "/a"]), ("DONE", []),
        ("BOGUS", [])]).2.1.scheduled = ["r1"] ∧
    (pyMain [("VERSION", ["1"]), ("START", ["r1", "/a"]), ("DONE", []),
        ("BOGUS", [])]).2.2 = Outcome.errExit := by
  refine ⟨?_, ?_, ?_, ?_⟩ <;>
    simp [runProgram, pyMain, mainLoop, stepCmd, startReplicaMon, startSub, st0]

/-- C4 corrected: on stream-end or uncaught-exception termination the
`finally` block releases every watch ever scheduled, but on a fatal protocol
error (any `ERROR` reply) the process exits immediately via `os._exit(1)`
and skips the teardown, so the watches of the replicas registered at that
moment are not released. -/
theorem c4_teardown_skipped_on_error (cmds : List Cmd)
    (hoc : (pyMain cmds).2.2 ≠ Outcome.errExit) :
    ∀ w ∈ (pyMain cmds).2.1.scheduled, w ∈ (runProgram cmds).released := by
  intro w hw
  have hinv := pyMain_watchInv cmds w hw
  unfold runProgram
  cases hp : pyMain cmds with
  | mk out rst =>
    obtain ⟨st, oc⟩ := rst
    rw [hp] at hinv hoc
    cases oc with
    | errExit => exact absurd rfl hoc
    | eof =>
      dsimp only
      rcases hinv with h | h
      · exact List.mem_append_left _ h
      · exact List.mem_append_right _ h
    | arityExc =>
      dsimp only
      rcases hinv with h | h
      · exact List.mem_append_left _ h
      · exact List.mem_append_right _ h

/-- Witness for C4 corrected: a run that ends with the input stream (no
ERROR): the scheduled watch of `r1` is in the released list. -/
theorem c4_witness :
    ((pyMain [("VERSION", ["1"]), ("START", ["r1", "/a"]), ("DONE", [])]).2.2 ≠
      Outcome.errExit) ∧
    ("r1" ∈ (pyMain [("VERSION", ["1"]), ("START", ["r1", "/a"]), ("DONE", [])]).2.1.scheduled) ∧
    ("r1" ∈ (runProgram [("VERSION", ["1"]), ("START", ["r1", "/a"]), ("DONE", [])]).released) :=
  ⟨by simp [pyMain, mainLoop, stepCmd, startReplicaMon, startSub, st0],
   by simp [pyMain, mainLoop, stepCmd, startReplicaMon, startSub, st0],
   c4_teardown_skipped_on_error [("VERSION", ["1"]), ("START", ["r1", "/a"]), ("DONE", [])]
     (by simp [pyMain, mainLoop, stepCmd, startReplicaMon, startSub, st0]) "r1"
     (by simp [pyMain, mainLoop, stepCmd, startReplicaMon, startSub, st0])⟩

/-- Witness for C1 at the record sequence `a/b` then `a` (the second record
subsumes the first). -/
theorem c1_witness :
    (drainO (recordAll none [["a", "b"], ["a"]])).Nodup ∧
    reportO (recordAll none [["a", "b"], ["a"]]) =
      (drainO (recordAll none [["a", "b"], ["a"]])).map (fun q => q.foldl osPathJoin "") :=
  ⟨(c1_drain_exactly_covers_records [["a", "b"], ["a"]]).1,
   (c1_drain_exactly_covers_records [["a", "b"], ["a"]]).2.2.2.2.2⟩
